import Mathlib

/-!
# Verification of the `heuristics` crate (parser + inverted-index search engine)

Shallow embedding of `src/lib.rs`.  Strings are Lean `String`s manipulated
through their character lists; Rust's `to_lowercase` is modelled as per-char
ASCII lowering (`Char.toLower`), `str::contains` as substring containment on
character lists, and `str::trim` as dropping whitespace characters on both
ends.  The two `HashMap`s of the source (`index` and `scores`) are modelled as
association lists in deterministic first-insertion order; Rust's
`sort_by(|a,b| b.1.cmp(&a.1))` (a stable descending sort by score) is modelled
by a stable insertion sort.
-/

/-- ASCII model of Rust `str::to_lowercase`. -/
def strLower (s : String) : String := ⟨s.data.map Char.toLower⟩

/-- `startsWithL hay pre` : does `hay` start with `pre`? (char-list level) -/
def startsWithL : List Char → List Char → Bool
  | _, [] => true
  | [], _ :: _ => false
  | a :: as, b :: bs => a == b && startsWithL as bs

/-- `listContains hay needle` : does `hay` contain `needle` as a contiguous
sublist?  Model of Rust `str::contains`. -/
def listContains : List Char → List Char → Bool
  | [], needle => needle.isEmpty
  | c :: rest, needle => startsWithL (c :: rest) needle || listContains rest needle

/-- Model of Rust `str::contains` (substring containment). -/
def strContains (hay needle : String) : Bool := listContains hay.data needle.data

/-- Model of Rust `str::starts_with`. -/
def strStarts (s p : String) : Bool := startsWithL s.data p.data

/-- Model of Rust `str::strip_prefix`. -/
def stripPfx? (s p : String) : Option String :=
  if strStarts s p then some ⟨s.data.drop p.data.length⟩ else none

/-- Model of Rust `str::strip_suffix`. -/
def stripSfx? (s p : String) : Option String :=
  if startsWithL s.data.reverse p.data.reverse then
    some ⟨(s.data.reverse.drop p.data.length).reverse⟩
  else none

/-- Model of Rust `str::trim` (whitespace from both ends). -/
def strTrim (s : String) : String :=
  ⟨((s.data.dropWhile Char.isWhitespace).reverse.dropWhile Char.isWhitespace).reverse⟩

/-- Model of Rust `str::is_empty`. -/
def strIsEmpty (s : String) : Bool := s.data.isEmpty

/-- Split a character list on a (non-empty) separator, Rust `str::split`
semantics: every occurrence separates, empty pieces kept.  Structural
recursion on a fuel argument (each step consumes at least one character,
so `hay.length` fuel always suffices). -/
def splitOnAux (sep : List Char) : Nat → List Char → List Char → List (List Char)
  | _, [], acc => [acc.reverse]
  | 0, _ :: _, acc => [acc.reverse]
  | fuel + 1, c :: rest, acc =>
    if startsWithL (c :: rest) sep then
      acc.reverse :: splitOnAux sep fuel ((c :: rest).drop sep.length) []
    else
      splitOnAux sep fuel rest (c :: acc)

/-- Model of Rust `str::split` on a string pattern (pattern assumed non-empty,
as everywhere in the source). -/
def strSplitOn (s sep : String) : List String :=
  if sep.data.isEmpty then [s]
  else (splitOnAux sep.data s.data.length s.data []).map (fun l => ⟨l⟩)

/-- Model of Rust `str::lines` (split on newline, with no trailing empty
line when the text ends in a newline). -/
def rustLines (s : String) : List String :=
  let ls := strSplitOn s "\n"
  match ls.getLast? with
  | some t => if t = "" then ls.dropLast else ls
  | none => ls

/-- One parsed heuristic record (`struct Heuristic` in the source). -/
structure Heuristic where
  title : String
  action : String
  category : String
  content : String
  crates : List String
  std_types : List String
  keywords : List String
deriving Repr, DecidableEq

/-- The fixed keyword-extraction vocabulary (`terms` array in
`extract_keywords`). -/
def vocabulary : List String :=
  ["hash", "hashmap", "hashset", "btree", "binary search", "lookup", "insert",
   "cache", "lru", "ttl", "bloom", "filter", "probabilistic",
   "disk", "persistence", "wal", "log", "lsm", "compression",
   "distributed", "shard", "replicate", "consensus", "crdt", "merkle",
   "concurrent", "lock-free", "atomic", "skip list",
   "trie", "prefix", "autocomplete", "heap", "priority queue",
   "geospatial", "rtree", "quadtree", "rope", "text",
   "event sourcing", "time-series", "batch", "async", "append-only",
   "performance", "throughput", "latency", "columnar", "parquet"]

/-- `extract_keywords` from the source: append every vocabulary term contained
in the lowercased text that is not already present. -/
def extract_keywords (text : String) (keywords : List String) : List String :=
  let lower := strLower text
  vocabulary.foldl
    (fun ks term =>
      if strContains lower term && !(ks.contains term) then ks ++ [term] else ks)
    keywords

/-- `extract_crate_name` from the source. -/
def extract_crate_name (line : String) : Option String :=
  match stripPfx? (strTrim line) "- `" with
  | none => none
  | some rest => (strSplitOn rest "`").head?

/-- `extract_code_name` from the source. -/
def extract_code_name (text : String) : Option String :=
  match stripPfx? (strTrim text) "`" with
  | none => none
  | some rest => stripSfx? rest "`"

/-- The mutable accumulator state of `parse_markdown`'s line loop. -/
structure PState where
  heuristics : List Heuristic
  cat : String
  title : String
  action : String
  content : String
  crates : List String
  std_types : List String
  keywords : List String
  in_h : Bool
deriving Repr

/-- Initial parser state. -/
def initPState : PState :=
  { heuristics := [], cat := "", title := "", action := "", content := "",
    crates := [], std_types := [], keywords := [], in_h := false }

/-- The record built from the accumulator (the `heuristics.push(...)` sites). -/
def currentRecord (st : PState) : Heuristic :=
  { title := st.title, action := st.action, category := st.cat,
    content := strTrim st.content, crates := st.crates,
    std_types := st.std_types, keywords := st.keywords }

/-- Flush guard of the source: `in_heuristic && !current_title.is_empty()`. -/
def flushHeuristics (st : PState) : List Heuristic :=
  if st.in_h && !(strIsEmpty st.title) then st.heuristics ++ [currentRecord st]
  else st.heuristics

/-- The `**Action:**` extraction of the content-line handling. -/
def actionStep (st : PState) (line : String) : PState :=
  match stripPfx? line "**Action:**" with
  | some action =>
    { st with action := strTrim action,
              keywords := extract_keywords (strTrim action) st.keywords }
  | none => st

/-- The crate-bullet extraction of the content-line handling. -/
def crateStep (st : PState) (line : String) : PState :=
  if strContains line "- **Crates:**" then st
  else if strStarts (strTrim line) "- `" && strContains line "` -" then
    match extract_crate_name line with
    | some crate_name =>
      { st with crates := st.crates ++ [crate_name],
                keywords := st.keywords ++ [crate_name] }
    | none => st
  else st

/-- The body of the `for part in types.split(',')` loop of the
`Std types` extraction. -/
def stdTypePart (st : PState) (part : String) : PState :=
  match extract_code_name (strTrim part) with
  | some type_name =>
    { st with std_types := st.std_types ++ [type_name],
              keywords := st.keywords ++ [type_name] }
  | none => st

/-- The `Std types` extraction of the content-line handling. -/
def stdTypesStep (st : PState) (line : String) : PState :=
  if strContains line "- **Std types:**" then
    match (strSplitOn line "**Std types:**")[1]? with
    | some types => (strSplitOn types ",").foldl stdTypePart st
    | none => st
  else st

/-- The `**When to use:**` extraction of the content-line handling. -/
def whenToUseStep (st : PState) (line : String) : PState :=
  if strContains line "**When to use:**" then
    match (strSplitOn line "**When to use:**")[1]? with
    | some use_case => { st with keywords := extract_keywords use_case st.keywords }
    | none => st
  else st

/-- Field extraction applied to one content line while inside an entry
(the body of the `if in_heuristic` block, after the content append): the four
independent extractions of the source, in source order. -/
def contentLineStep (st : PState) (line : String) : PState :=
  whenToUseStep (stdTypesStep (crateStep (actionStep st line) line) line) line

/-- One iteration of the `for line in content.lines()` loop of
`parse_markdown`. -/
def stepLine (st : PState) (line : String) : PState :=
  match stripPfx? line "## " with
  | some cat =>
    { heuristics := flushHeuristics st, cat := strTrim cat,
      title := "", action := "", content := "", crates := [],
      std_types := [], keywords := [], in_h := false }
  | none =>
  match stripPfx? line "### " with
  | some title =>
    let t := strTrim title
    { heuristics := flushHeuristics st, cat := st.cat,
      title := t, action := "", content := line ++ "\n", crates := [],
      std_types := [], keywords := extract_keywords t [], in_h := true }
  | none =>
    if st.in_h then
      contentLineStep { st with content := st.content ++ line ++ "\n" } line
    else st

/-- `parse_markdown` from the source: fold the line loop, then the
end-of-input flush. -/
def parse_markdown (content : String) : List Heuristic :=
  flushHeuristics ((rustLines content).foldl stepLine initPState)

/-- The inverted index: association list in first-insertion order, modelling
`HashMap<String, Vec<usize>>`. -/
abbrev Index := List (String × List Nat)

/-- `index.entry(key).or_default().push(idx)` on the association-list model. -/
def insertIdx (index : Index) (key : String) (idx : Nat) : Index :=
  match index with
  | [] => [(key, [idx])]
  | (k, b) :: rest =>
    if k = key then (k, b ++ [idx]) :: rest else (k, b) :: insertIdx rest key idx

/-- `HashMap::get` on the association-list model. -/
def lookupIdx (index : Index) (key : String) : Option (List Nat) :=
  match index with
  | [] => none
  | (k, b) :: rest => if k = key then some b else lookupIdx rest key

/-- The per-record body of the construction loop in `HeuristicDb::new`:
index all keywords, crate names, std types, and the category. -/
def indexRecord (index : Index) (idx : Nat) (h : Heuristic) : Index :=
  let index := h.keywords.foldl (fun ix kw => insertIdx ix (strLower kw) idx) index
  let index := h.crates.foldl (fun ix c => insertIdx ix (strLower c) idx) index
  let index := h.std_types.foldl (fun ix t => insertIdx ix (strLower t) idx) index
  insertIdx index (strLower h.category) idx

/-- The `for (idx, heuristic) in heuristics.iter().enumerate()` loop. -/
def buildIndexAux (index : Index) (start : Nat) : List Heuristic → Index
  | [] => index
  | h :: rest => buildIndexAux (indexRecord index start h) (start + 1) rest

/-- The full index built by `HeuristicDb::new`. -/
def buildIndex (hs : List Heuristic) : Index := buildIndexAux [] 0 hs

/-- `struct HeuristicDb`. -/
structure HeuristicDb where
  heuristics : List Heuristic
  index : Index

/-- `HeuristicDb::new`. -/
def HeuristicDb.new (hs : List Heuristic) : HeuristicDb :=
  { heuristics := hs, index := buildIndex hs }

/-- The score accumulator: association list in first-insertion order,
modelling `HashMap<usize, usize>`. -/
abbrev Scores := List (Nat × Nat)

/-- `*scores.entry(idx).or_default() += amt`. -/
def bump (scores : Scores) (idx amt : Nat) : Scores :=
  match scores with
  | [] => [(idx, amt)]
  | (i, v) :: rest =>
    if i = idx then (i, v + amt) :: rest else (i, v) :: bump rest idx amt

/-- Bump every position of a bucket by `amt` (the inner `for &idx in indices`
loops of `search`). -/
def bumpAll (scores : Scores) (bucket : List Nat) (amt : Nat) : Scores :=
  bucket.foldl (fun s i => bump s i amt) scores

/-- The two-direction substring test of the partial-match scan:
`indexed_keyword.contains(&normalized) || normalized.contains(indexed_keyword)`. -/
def matchB (indexed_keyword normalized : String) : Bool :=
  strContains indexed_keyword normalized || strContains normalized indexed_keyword

/-- The body of the query-term loop of `search`, for an already-normalized
term `n`: exact bucket pass (+2 each) then the scan over every indexed
token (+1 each on containment in either direction). -/
def termPassN (index : Index) (scores : Scores) (n : String) : Scores :=
  let scores :=
    match lookupIdx index n with
    | some indices => bumpAll scores indices 2
    | none => scores
  index.foldl
    (fun s kb => if matchB kb.1 n then bumpAll s kb.2 1 else s)
    scores

/-- One query term: normalize to lowercase, then run both passes. -/
def termPass (index : Index) (scores : Scores) (t : String) : Scores :=
  termPassN index scores (strLower t)

/-- The accumulated score map of `search` over all query terms. -/
def computeScores (index : Index) (terms : List String) : Scores :=
  terms.foldl (termPass index) []

/-- Stable insert for the descending-by-score sort. -/
def insDesc (x : Nat × Nat) : Scores → Scores
  | [] => [x]
  | y :: ys => if y.2 > x.2 then y :: insDesc x ys else x :: y :: ys

/-- Stable sort by score descending, modelling
`results.sort_by(|a, b| b.1.cmp(&a.1))` (Rust's `sort_by` is stable). -/
def sortDesc (l : Scores) : Scores := l.foldr insDesc []

/-- `HeuristicDb::search`.  The final indexing `&self.heuristics[idx]`
(which panics out of bounds in Rust) is modelled by the `Option`-valued
list lookup; it never misses on an index built by `new` (see the safety
theorem below). -/
def HeuristicDb.search (db : HeuristicDb) (keywords : List String) : List Heuristic :=
  (sortDesc (computeScores db.index keywords)).filterMap
    (fun e => db.heuristics[e.1]?)

/-- `HeuristicDb::by_category`. -/
def HeuristicDb.by_category (db : HeuristicDb) (category : String) : List Heuristic :=
  db.heuristics.filter (fun h => strLower h.category == strLower category)

/-- Lexicographic comparison of character lists by codepoint, the order
`Vec::sort` uses on (ASCII) strings. -/
def lexLe : List Char → List Char → Bool
  | [], _ => true
  | _ :: _, [] => false
  | a :: as, b :: bs =>
    if a.toNat < b.toNat then true
    else if b.toNat < a.toNat then false
    else lexLe as bs

/-- String comparison for the `categories` sort. -/
def strLe (a b : String) : Bool := lexLe a.data b.data

/-- Stable insert for the ascending lexicographic sort of `categories`. -/
def insAsc (x : String) : List String → List String
  | [] => [x]
  | y :: ys => if strLe x y then x :: y :: ys else y :: insAsc x ys

/-- Stable ascending sort, modelling `Vec::sort` on strings. -/
def sortAsc (l : List String) : List String := l.foldr insAsc []

/-- Tail of `Vec::dedup`: drop every element equal to the previously kept
one. -/
def dedupGo (prev : String) : List String → List String
  | [] => []
  | y :: rest => if prev = y then dedupGo prev rest else y :: dedupGo y rest

/-- Model of `Vec::dedup`: remove consecutive duplicate elements, keeping the
first of each run. -/
def dedupAdj : List String → List String
  | [] => []
  | x :: rest => x :: dedupGo x rest

/-- `HeuristicDb::categories`: collect, sort, dedup. -/
def HeuristicDb.categories (db : HeuristicDb) : List String :=
  dedupAdj (sortAsc (db.heuristics.map (fun h => h.category)))

/-- `HeuristicDb::all`. -/
def HeuristicDb.all (db : HeuristicDb) : List Heuristic := db.heuristics

/-- The accumulated score of a record position in a score map (0 when the
position has no entry). -/
def scoreOf (scores : Scores) (p : Nat) : Nat :=
  match scores with
  | [] => 0
  | (i, v) :: rest => if i = p then v else scoreOf rest p

/-- The bucket of a token (empty when the token is not indexed). -/
def bucketOf (index : Index) (n : String) : List Nat :=
  (lookupIdx index n).getD []

/-- The score the specification promises one query term `t` contributes to
position `p`: +2 per occurrence of `p` in the bucket keyed exactly by the
lowercase normalization of `t`, plus +1 per occurrence of `p` in the bucket
of every indexed token related to the normalization by substring containment
in either direction. -/
def termScoreSpec (index : Index) (t : String) (p : Nat) : Nat :=
  2 * (bucketOf index (strLower t)).count p
    + (index.map
        (fun kb => if matchB kb.1 (strLower t) then kb.2.count p else 0)).sum

/-- Keys (first components) of a score map. -/
def keysOf (scores : Scores) : List Nat := scores.map (fun e => e.1)

/-- `p` is recorded in the bucket of key `k`. -/
def hasPos (idx : Index) (k : String) (p : Nat) : Prop :=
  ∃ b, lookupIdx idx k = some b ∧ p ∈ b

/-- All positions stored anywhere in the index are below `n`. -/
def boundedIdx (idx : Index) (n : Nat) : Prop :=
  ∀ kb ∈ idx, ∀ p ∈ kb.2, p < n

/-- A sample record used to instantiate witnesses on a concrete database. -/
def sampleHeuristic : Heuristic :=
  { title := "Need O(1) average-case lookups or inserts?",
    action := "Use HashMap", category := "Data Structures",
    content := "### Need O(1) average-case lookups or inserts?",
    crates := ["hashbrown"], std_types := ["HashMap"],
    keywords := ["hashmap", "lookup"] }

theorem scoreOf_bump (s : Scores) (i a p : Nat) :
    scoreOf (bump s i a) p = scoreOf s p + if i = p then a else 0 := by
  induction s with
  | nil => simp [bump, scoreOf]
  | cons hd rest ih =>
    obtain ⟨j, v⟩ := hd
    simp only [bump, scoreOf]
    by_cases hji : j = i
    · subst hji
      by_cases hjp : j = p <;> simp [hjp, scoreOf]
    · by_cases hjp : j = p
      · subst hjp
        have : ¬ i = j := fun h => hji h.symm
        simp [hji, scoreOf, this]
      · simp [hji, hjp, scoreOf, ih]

theorem scoreOf_bumpAll (b : List Nat) (s : Scores) (a p : Nat) :
    scoreOf (bumpAll s b a) p = scoreOf s p + a * b.count p := by
  induction b generalizing s with
  | nil => simp [bumpAll, List.count_nil]
  | cons c b ih =>
    simp only [bumpAll, List.foldl_cons] at *
    rw [ih, scoreOf_bump, List.count_cons]
    by_cases hcp : c = p
    · simp [hcp]; try ring
    · simp [hcp]; try ring

theorem scoreOf_scanFold (idx : Index) (s : Scores) (n : String) (p : Nat) :
    scoreOf
        (idx.foldl (fun s kb => if matchB kb.1 n then bumpAll s kb.2 1 else s) s)
        p
      = scoreOf s p
        + (idx.map (fun kb => if matchB kb.1 n then kb.2.count p else 0)).sum := by
  induction idx generalizing s with
  | nil => simp
  | cons kb idx ih =>
    simp only [List.foldl_cons, List.map_cons, List.sum_cons]
    by_cases hm : matchB kb.1 n
    · simp only [hm, if_true, ih, scoreOf_bumpAll]
      ring
    · simp only [hm, if_false, Bool.false_eq_true, ih]
      ring

theorem scoreOf_termPass (idx : Index) (s : Scores) (t : String) (p : Nat) :
    scoreOf (termPass idx s t) p = scoreOf s p + termScoreSpec idx t p := by
  simp only [termPass, termPassN, termScoreSpec, bucketOf]
  cases hl : lookupIdx idx (strLower t) with
  | none => simp [scoreOf_scanFold, List.count_nil]
  | some b => simp [scoreOf_scanFold, scoreOf_bumpAll]; omega

theorem scoreOf_computeScoresAux (ts : List String) (idx : Index) (s : Scores)
    (p : Nat) :
    scoreOf (ts.foldl (termPass idx) s) p
      = scoreOf s p + (ts.map (fun t => termScoreSpec idx t p)).sum := by
  induction ts generalizing s with
  | nil => simp
  | cons t ts ih => simp [ih, scoreOf_termPass]; ring

theorem scoreOf_computeScores (idx : Index) (ts : List String) (p : Nat) :
    scoreOf (computeScores idx ts) p
      = (ts.map (fun t => termScoreSpec idx t p)).sum := by
  simpa [computeScores, scoreOf] using scoreOf_computeScoresAux ts idx [] p

theorem startsWithL_self (l : List Char) : startsWithL l l = true := by
  induction l with
  | nil => rfl
  | cons c rest ih => simp [startsWithL, ih]

theorem strContains_self (s : String) : strContains s s = true := by
  unfold strContains
  cases h : s.data with
  | nil => simp [listContains]
  | cons c rest => simp [listContains, startsWithL_self]

theorem matchB_self (n : String) : matchB n n = true := by
  simp [matchB, strContains_self]

theorem lookupIdx_mem {idx : Index} {k : String} {b : List Nat}
    (h : lookupIdx idx k = some b) : (k, b) ∈ idx := by
  induction idx with
  | nil => simp [lookupIdx] at h
  | cons kb rest ih =>
    obtain ⟨k', b'⟩ := kb
    by_cases hk : k' = k
    · subst hk
      simp [lookupIdx] at h
      simp [h]
    · simp [lookupIdx, hk] at h
      exact List.mem_cons_of_mem _ (ih h)

theorem termScoreSpec_ge_three {idx : Index} {t : String} {b : List Nat}
    {p : Nat} (hl : lookupIdx idx (strLower t) = some b) (hp : p ∈ b) :
    3 ≤ termScoreSpec idx t p := by
  have hcount : 1 ≤ b.count p := List.one_le_count_iff.mpr hp
  have hmemb : (strLower t, b) ∈ idx := lookupIdx_mem hl
  have hbucket : bucketOf idx (strLower t) = b := by simp [bucketOf, hl]
  have hval :
      (if matchB (strLower t) (strLower t) then b.count p else 0)
        ∈ idx.map (fun kb => if matchB kb.1 (strLower t) then kb.2.count p else 0) :=
    List.mem_map_of_mem _ hmemb
  have hsum :
      (if matchB (strLower t) (strLower t) then b.count p else 0)
        ≤ (idx.map (fun kb => if matchB kb.1 (strLower t) then kb.2.count p else 0)).sum :=
    List.single_le_sum (fun x _ => Nat.zero_le x) _ hval
  rw [matchB_self] at hsum
  simp only [if_true] at hsum
  unfold termScoreSpec
  rw [hbucket]
  omega

theorem keysOf_bump (s : Scores) (i a : Nat) :
    keysOf (bump s i a) = keysOf s ∨ keysOf (bump s i a) = keysOf s ++ [i] := by
  induction s with
  | nil => right; simp [bump, keysOf]
  | cons hd rest ih =>
    obtain ⟨j, v⟩ := hd
    by_cases hji : j = i
    · left; simp [bump, hji, keysOf]
    · rcases ih with h | h
      · left; simp [bump, hji, keysOf] at h ⊢; exact h
      · right; simp [bump, hji, keysOf] at h ⊢; exact h

theorem scoreOf_pos_mem_keys {s : Scores} {p : Nat} (h : 0 < scoreOf s p) :
    p ∈ keysOf s := by
  induction s with
  | nil => simp [scoreOf] at h
  | cons hd rest ih =>
    obtain ⟨i, v⟩ := hd
    by_cases hip : i = p
    · simp [keysOf, hip]
    · simp only [scoreOf, hip, if_false] at h
      simp [keysOf]
      right
      simpa [keysOf] using ih h

theorem mem_keys_bump (s : Scores) (i a : Nat) {p : Nat}
    (h : p ∈ keysOf (bump s i a)) : p ∈ keysOf s ∨ p = i := by
  rcases keysOf_bump s i a with he | he <;> rw [he] at h
  · exact Or.inl h
  · rcases List.mem_append.mp h with h | h
    · exact Or.inl h
    · simp at h; exact Or.inr h

theorem nodup_keys_bump {s : Scores} (hs : (keysOf s).Nodup) (i a : Nat) :
    (keysOf (bump s i a)).Nodup := by
  induction s with
  | nil => simp [bump, keysOf]
  | cons hd rest ih =>
    obtain ⟨j, v⟩ := hd
    simp only [keysOf, List.map_cons, List.nodup_cons] at hs
    by_cases hji : j = i
    · simp only [bump, hji, if_true, keysOf, List.map_cons, List.nodup_cons]
      exact ⟨by simpa [hji, keysOf] using hs.1, by simpa [keysOf] using hs.2⟩
    · simp only [bump, hji, if_false, keysOf, List.map_cons, List.nodup_cons]
      constructor
      · intro hmem
        rcases mem_keys_bump rest i a (by simpa [keysOf] using hmem) with h | h
        · exact hs.1 (by simpa [keysOf] using h)
        · exact hji h
      · exact ih (by simpa [keysOf] using hs.2)

theorem nodup_keys_bumpAll {s : Scores} (hs : (keysOf s).Nodup)
    (b : List Nat) (a : Nat) : (keysOf (bumpAll s b a)).Nodup := by
  induction b generalizing s with
  | nil => simpa [bumpAll]
  | cons c b ih =>
    simp only [bumpAll, List.foldl_cons] at *
    exact ih (nodup_keys_bump hs c a)

theorem mem_keys_bumpAll {s : Scores} {b : List Nat} {a p : Nat}
    (h : p ∈ keysOf (bumpAll s b a)) : p ∈ keysOf s ∨ p ∈ b := by
  induction b generalizing s with
  | nil => exact Or.inl (by simpa [bumpAll] using h)
  | cons c b ih =>
    simp only [bumpAll, List.foldl_cons] at h
    rcases ih (by simpa [bumpAll] using h) with h' | h'
    · rcases mem_keys_bump s c a h' with h'' | h''
      · exact Or.inl h''
      · exact Or.inr (by simp [h''])
    · exact Or.inr (List.mem_cons_of_mem _ h')

theorem nodup_keys_scanFold {idx : Index} {s : Scores} {n : String}
    (hs : (keysOf s).Nodup) :
    (keysOf
      (idx.foldl (fun s kb => if matchB kb.1 n then bumpAll s kb.2 1 else s) s)).Nodup := by
  induction idx generalizing s with
  | nil => simpa
  | cons kb idx ih =>
    simp only [List.foldl_cons]
    by_cases hm : matchB kb.1 n
    · simp only [hm, if_true]
      exact ih (nodup_keys_bumpAll hs kb.2 1)
    · simp only [hm, if_false, Bool.false_eq_true]
      exact ih hs

theorem mem_keys_scanFold {idx : Index} {s : Scores} {n : String} {p : Nat}
    (h : p ∈ keysOf
      (idx.foldl (fun s kb => if matchB kb.1 n then bumpAll s kb.2 1 else s) s)) :
    p ∈ keysOf s ∨ ∃ kb ∈ idx, p ∈ kb.2 := by
  induction idx generalizing s with
  | nil => exact Or.inl (by simpa using h)
  | cons kb idx ih =>
    simp only [List.foldl_cons] at h
    by_cases hm : matchB kb.1 n
    · rw [if_pos hm] at h
      rcases ih h with h' | h'
      · rcases mem_keys_bumpAll h' with h'' | h''
        · exact Or.inl h''
        · exact Or.inr ⟨kb, by simp, h''⟩
      · obtain ⟨kb', hkb', hp⟩ := h'
        exact Or.inr ⟨kb', by simp [hkb'], hp⟩
    · rw [if_neg hm] at h
      rcases ih h with h' | h'
      · exact Or.inl h'
      · obtain ⟨kb', hkb', hp⟩ := h'
        exact Or.inr ⟨kb', by simp [hkb'], hp⟩

theorem nodup_keys_termPassN {idx : Index} {s : Scores} {n : String}
    (hs : (keysOf s).Nodup) : (keysOf (termPassN idx s n)).Nodup := by
  unfold termPassN
  cases hl : lookupIdx idx n with
  | none => exact nodup_keys_scanFold hs
  | some b => exact nodup_keys_scanFold (nodup_keys_bumpAll hs b 2)

theorem mem_keys_termPassN {idx : Index} {s : Scores} {n : String} {p : Nat}
    (h : p ∈ keysOf (termPassN idx s n)) :
    p ∈ keysOf s ∨ ∃ kb ∈ idx, p ∈ kb.2 := by
  unfold termPassN at h
  cases hl : lookupIdx idx n with
  | none =>
    rw [hl] at h
    exact mem_keys_scanFold h
  | some b =>
    rw [hl] at h
    rcases mem_keys_scanFold h with h' | h'
    · rcases mem_keys_bumpAll h' with h'' | h''
      · exact Or.inl h''
      · exact Or.inr ⟨(n, b), lookupIdx_mem hl, h''⟩
    · exact Or.inr h'

theorem nodup_keys_computeScores (idx : Index) (ts : List String) :
    (keysOf (computeScores idx ts)).Nodup := by
  have aux : ∀ (ts : List String) (s : Scores), (keysOf s).Nodup →
      (keysOf (ts.foldl (termPass idx) s)).Nodup := by
    intro ts
    induction ts with
    | nil => intro s hs; simpa
    | cons t ts ih =>
      intro s hs
      simp only [List.foldl_cons]
      exact ih _ (nodup_keys_termPassN hs)
  exact aux ts [] (by simp [keysOf])

theorem mem_keys_computeScores {idx : Index} {ts : List String} {p : Nat}
    (h : p ∈ keysOf (computeScores idx ts)) : ∃ kb ∈ idx, p ∈ kb.2 := by
  have aux : ∀ (ts : List String) (s : Scores),
      p ∈ keysOf (ts.foldl (termPass idx) s) →
      p ∈ keysOf s ∨ ∃ kb ∈ idx, p ∈ kb.2 := by
    intro ts
    induction ts with
    | nil => intro s hs; exact Or.inl (by simpa using hs)
    | cons t ts ih =>
      intro s hs
      simp only [List.foldl_cons] at hs
      rcases ih _ hs with h' | h'
      · exact mem_keys_termPassN h'
      · exact Or.inr h'
  rcases aux ts [] h with h' | h'
  · simp [keysOf] at h'
  · exact h'

theorem insDesc_perm (x : Nat × Nat) (l : Scores) :
    (insDesc x l).Perm (x :: l) := by
  induction l with
  | nil => simp [insDesc]
  | cons y ys ih =>
    by_cases hy : y.2 > x.2
    · simp only [insDesc, hy, if_true]
      exact (ih.cons y).trans (List.Perm.swap x y ys)
    · simp [insDesc, hy]

theorem sortDesc_perm (l : Scores) : (sortDesc l).Perm l := by
  induction l with
  | nil => simp [sortDesc]
  | cons x l ih =>
    simp only [sortDesc, List.foldr_cons] at *
    exact (insDesc_perm x _).trans (ih.cons x)

theorem hasPos_insertIdx_self (idx : Index) (k : String) (i : Nat) :
    hasPos (insertIdx idx k i) k i := by
  induction idx with
  | nil => exact ⟨[i], by simp [insertIdx, lookupIdx], by simp⟩
  | cons kb rest ih =>
    obtain ⟨k', b⟩ := kb
    by_cases hk : k' = k
    · exact ⟨b ++ [i], by simp [insertIdx, lookupIdx, hk], by simp⟩
    · obtain ⟨b', hb', hi⟩ := ih
      exact ⟨b', by simp [insertIdx, lookupIdx, hk, hb'], hi⟩

theorem hasPos_insertIdx_mono {idx : Index} {k : String} {p : Nat}
    (h : hasPos idx k p) (k' : String) (j : Nat) :
    hasPos (insertIdx idx k' j) k p := by
  induction idx with
  | nil => obtain ⟨b, hb, _⟩ := h; simp [lookupIdx] at hb
  | cons kb rest ih =>
    obtain ⟨k0, b0⟩ := kb
    obtain ⟨b, hb, hp⟩ := h
    simp only [lookupIdx] at hb
    by_cases h0 : k0 = k
    · rw [if_pos h0] at hb
      injection hb with hbe
      subst hbe
      by_cases h0' : k0 = k'
      · refine ⟨b0 ++ [j], ?_, List.mem_append_left _ hp⟩
        simp only [insertIdx, if_pos h0', lookupIdx, if_pos h0]
      · refine ⟨b0, ?_, hp⟩
        simp only [insertIdx, if_neg h0', lookupIdx, if_pos h0]
    · rw [if_neg h0] at hb
      by_cases h0' : k0 = k'
      · refine ⟨b, ?_, hp⟩
        simp only [insertIdx, if_pos h0', lookupIdx, if_neg h0, hb]
      · obtain ⟨b2, hb2, hp2⟩ := ih ⟨b, hb, hp⟩
        refine ⟨b2, ?_, hp2⟩
        simp only [insertIdx, if_neg h0', lookupIdx, if_neg h0, hb2]

theorem hasPos_foldInsert_mono {k : String} {p : Nat} (l : List String)
    (j : Nat) :
    ∀ {idx : Index}, hasPos idx k p →
      hasPos (l.foldl (fun ix s => insertIdx ix (strLower s) j) idx) k p := by
  induction l with
  | nil => intro idx h; simpa
  | cons s l ih =>
    intro idx h
    simp only [List.foldl_cons]
    exact ih (hasPos_insertIdx_mono h _ j)

theorem hasPos_indexRecord_mono {idx : Index} {k : String} {p : Nat}
    (h : hasPos idx k p) (i : Nat) (hrec : Heuristic) :
    hasPos (indexRecord idx i hrec) k p := by
  unfold indexRecord
  exact hasPos_insertIdx_mono
    (hasPos_foldInsert_mono _ _ (hasPos_foldInsert_mono _ _
      (hasPos_foldInsert_mono _ _ h))) _ i

theorem hasPos_indexRecord_cat (idx : Index) (i : Nat) (hrec : Heuristic) :
    hasPos (indexRecord idx i hrec) (strLower hrec.category) i := by
  unfold indexRecord
  exact hasPos_insertIdx_self _ _ _

theorem hasPos_buildIndexAux_mono {k : String} {p : Nat}
    (hs : List Heuristic) :
    ∀ {idx : Index} {start : Nat}, hasPos idx k p →
      hasPos (buildIndexAux idx start hs) k p := by
  induction hs with
  | nil => intro idx start h; simpa [buildIndexAux]
  | cons hrec hs ih =>
    intro idx start h
    simp only [buildIndexAux]
    exact ih (hasPos_indexRecord_mono h start hrec)

theorem hasPos_buildIndexAux_cat (hs : List Heuristic) :
    ∀ (idx : Index) (start i : Nat) (hi : i < hs.length),
      hasPos (buildIndexAux idx start hs)
        (strLower (hs.get ⟨i, hi⟩).category) (start + i) := by
  induction hs with
  | nil => intro idx start i hi; simp at hi
  | cons hrec hs ih =>
    intro idx start i hi
    cases i with
    | zero =>
      simp only [buildIndexAux, List.get]
      simpa using hasPos_buildIndexAux_mono hs (hasPos_indexRecord_cat idx start hrec)
    | succ i =>
      simp only [buildIndexAux, List.get]
      have := ih (indexRecord idx start hrec) (start + 1) i
        (by simpa using Nat.lt_of_succ_lt_succ hi)
      simpa [Nat.add_assoc, Nat.add_comm 1 i] using this

theorem hasPos_buildIndex_cat (hs : List Heuristic) (i : Nat)
    (hi : i < hs.length) :
    hasPos (buildIndex hs) (strLower (hs.get ⟨i, hi⟩).category) i := by
  simpa using hasPos_buildIndexAux_cat hs [] 0 i hi

theorem boundedIdx_insertIdx {idx : Index} {n : Nat} (h : boundedIdx idx n)
    {i : Nat} (hi : i < n) (k : String) : boundedIdx (insertIdx idx k i) n := by
  induction idx with
  | nil =>
    intro kb hkb p hp
    simp [insertIdx] at hkb
    subst hkb
    simp at hp
    omega
  | cons kb0 rest ih =>
    obtain ⟨k0, b0⟩ := kb0
    intro kb hkb p hp
    by_cases hk : k0 = k
    · simp only [insertIdx, if_pos hk] at hkb
      rcases List.mem_cons.mp hkb with he | he
      · subst he
        rcases List.mem_append.mp hp with h' | h'
        · exact h (k0, b0) (by simp) p h'
        · simp at h'; omega
      · exact h kb (List.mem_cons_of_mem _ he) p hp
    · simp only [insertIdx, if_neg hk] at hkb
      rcases List.mem_cons.mp hkb with he | he
      · subst he
        exact h (k0, b0) (by simp) p hp
      · exact ih (fun kb' hkb' p' hp' => h kb' (List.mem_cons_of_mem _ hkb') p' hp')
          kb he p hp

theorem boundedIdx_foldInsert {n j : Nat} (hj : j < n) (l : List String) :
    ∀ {idx : Index}, boundedIdx idx n →
      boundedIdx (l.foldl (fun ix s => insertIdx ix (strLower s) j) idx) n := by
  induction l with
  | nil => intro idx h; simpa
  | cons s l ih =>
    intro idx h
    simp only [List.foldl_cons]
    exact ih (boundedIdx_insertIdx h hj _)

theorem boundedIdx_indexRecord {idx : Index} {n i : Nat} (h : boundedIdx idx n)
    (hi : i < n) (hrec : Heuristic) : boundedIdx (indexRecord idx i hrec) n := by
  unfold indexRecord
  exact boundedIdx_insertIdx
    (boundedIdx_foldInsert hi _ (boundedIdx_foldInsert hi _
      (boundedIdx_foldInsert hi _ h))) hi _

theorem boundedIdx_buildIndexAux (hs : List Heuristic) :
    ∀ {idx : Index} {start n : Nat}, boundedIdx idx n →
      start + hs.length ≤ n → boundedIdx (buildIndexAux idx start hs) n := by
  induction hs with
  | nil => intro idx start n h _; simpa [buildIndexAux]
  | cons hrec hs ih =>
    intro idx start n h hle
    simp only [buildIndexAux]
    have hstart : start < n := by simp at hle; omega
    exact ih (boundedIdx_indexRecord h hstart hrec) (by simp at hle ⊢; omega)

theorem boundedIdx_buildIndex (hs : List Heuristic) :
    boundedIdx (buildIndex hs) hs.length := by
  exact boundedIdx_buildIndexAux hs (fun kb hkb => by simp at hkb) (by simp)

theorem strContains_empty (s : String) : strContains s "" = true := by
  unfold strContains
  cases h : s.data with
  | nil => simp [listContains]
  | cons c rest => simp [listContains, startsWithL]

theorem matchB_empty (k : String) : matchB k "" = true := by
  simp [matchB, strContains_empty]

theorem termScoreSpec_ge_bucket {idx : Index} {k : String} {b : List Nat}
    {p : Nat} (hkb : (k, b) ∈ idx) (hp : p ∈ b) :
    1 ≤ termScoreSpec idx "" p := by
  have hcount : 1 ≤ b.count p := List.one_le_count_iff.mpr hp
  have hval :
      (if matchB k (strLower "") then b.count p else 0)
        ∈ idx.map (fun kb => if matchB kb.1 (strLower "") then kb.2.count p else 0) :=
    List.mem_map_of_mem _ hkb
  have hsum := List.single_le_sum (fun x _ => Nat.zero_le x) _ hval
  have hmb : matchB k (strLower "") = true := by
    simp [strLower, matchB_empty]
  rw [hmb] at hsum
  simp only [if_true] at hsum
  unfold termScoreSpec
  omega

theorem computeScoresAux_lower_eq (idx : Index) :
    ∀ (ts1 ts2 : List String), ts1.map strLower = ts2.map strLower →
      ∀ s, ts1.foldl (termPass idx) s = ts2.foldl (termPass idx) s := by
  intro ts1
  induction ts1 with
  | nil =>
    intro ts2 h s
    cases ts2 with
    | nil => rfl
    | cons t2 ts2' => simp at h
  | cons t ts ih =>
    intro ts2 h s
    cases ts2 with
    | nil => simp at h
    | cons t2 ts2' =>
      simp only [List.map_cons, List.cons.injEq] at h
      simp only [List.foldl_cons]
      rw [show termPass idx s t = termPass idx s t2 from by
        unfold termPass; rw [h.1]]
      exact ih ts2' h.2 _

/-- C1: for every database and query-term list, `search` scores each record
position as the sum, over the query terms, of +2 per occurrence of the
position in the bucket keyed exactly by the term's lowercase normalization
plus +1 per occurrence in the bucket of every indexed token related to the
normalization by substring containment in either direction; consequently a
position occurring in the exact bucket of some query term scores at least 3. -/
theorem search_scoring_closed_form (hs : List Heuristic) (ts : List String)
    (p : Nat) :
    scoreOf (computeScores (HeuristicDb.new hs).index ts) p
      = (ts.map (fun t => termScoreSpec (HeuristicDb.new hs).index t p)).sum
    ∧ (∀ t ∈ ts, ∀ b,
        lookupIdx (HeuristicDb.new hs).index (strLower t) = some b → p ∈ b →
        3 ≤ scoreOf (computeScores (HeuristicDb.new hs).index ts) p) := by
  constructor
  · exact scoreOf_computeScores _ ts p
  · intro t ht b hb hp
    rw [scoreOf_computeScores]
    have h3 := termScoreSpec_ge_three hb hp
    have hmem : termScoreSpec (HeuristicDb.new hs).index t p
        ∈ ts.map (fun t => termScoreSpec (HeuristicDb.new hs).index t p) :=
      List.mem_map_of_mem _ ht
    exact le_trans h3 (List.single_le_sum (fun x _ => Nat.zero_le x) _ hmem)

theorem search_scoring_closed_form_witness :
    3 ≤ scoreOf (computeScores (HeuristicDb.new [sampleHeuristic]).index
          ["hashmap"]) 0 :=
  (search_scoring_closed_form [sampleHeuristic] ["hashmap"] 0).2 "hashmap"
    (by decide) [0, 0] (by decide) (by decide)

/-- C6: queries that agree after lowercase normalization (in particular,
queries differing only in letter case) return identical result sequences. -/
theorem search_case_insensitive (hs : List Heuristic) (ts1 ts2 : List String)
    (h : ts1.map strLower = ts2.map strLower) :
    (HeuristicDb.new hs).search ts1 = (HeuristicDb.new hs).search ts2 := by
  unfold HeuristicDb.search
  unfold computeScores
  rw [computeScoresAux_lower_eq _ ts1 ts2 h []]

theorem search_case_insensitive_witness :
    (HeuristicDb.new [sampleHeuristic]).search ["HashMap"]
        = (HeuristicDb.new [sampleHeuristic]).search ["hashmap"]
      ∧ (HeuristicDb.new [sampleHeuristic]).search ["hashmap"]
        = (HeuristicDb.new [sampleHeuristic]).search ["HashMAP"] :=
  ⟨search_case_insensitive [sampleHeuristic] ["HashMap"] ["hashmap"] (by decide),
   search_case_insensitive [sampleHeuristic] ["hashmap"] ["HashMAP"] (by decide)⟩

/-- C9: the result sequence of `search` mentions each record position at most
once: the positions of the sorted score list are pairwise distinct, for every
database and every query-term list. -/
theorem search_positions_nodup (hs : List Heuristic) (ts : List String) :
    ((sortDesc (computeScores (HeuristicDb.new hs).index ts)).map
        (fun e => e.1)).Nodup := by
  have hperm :
      ((sortDesc (computeScores (HeuristicDb.new hs).index ts)).map
        (fun e => e.1)).Perm
        (keysOf (computeScores (HeuristicDb.new hs).index ts)) :=
    (sortDesc_perm _).map _
  exact hperm.nodup_iff.mpr (nodup_keys_computeScores _ ts)

/-- C10: every position stored in any bucket of the index built by
`HeuristicDb::new` is strictly below the number of records, so the record
lookup `&self.heuristics[idx]` performed by `search` for each scored position
is always in bounds. -/
theorem index_positions_in_bounds (hs : List Heuristic) :
    (∀ k b, lookupIdx (HeuristicDb.new hs).index k = some b →
        ∀ p ∈ b, p < hs.length)
    ∧ (∀ ts : List String,
        ∀ e ∈ sortDesc (computeScores (HeuristicDb.new hs).index ts),
          ((HeuristicDb.new hs).heuristics[e.1]?).isSome = true) := by
  have hbound := boundedIdx_buildIndex hs
  constructor
  · intro k b hb p hp
    exact hbound (k, b) (lookupIdx_mem hb) p hp
  · intro ts e he
    have he' : e ∈ computeScores (HeuristicDb.new hs).index ts :=
      ((sortDesc_perm _).mem_iff).mp he
    have hk : e.1 ∈ keysOf (computeScores (HeuristicDb.new hs).index ts) :=
      List.mem_map_of_mem _ he'
    obtain ⟨kb, hkb, hpkb⟩ := mem_keys_computeScores hk
    have hlt : e.1 < hs.length := hbound kb hkb _ hpkb
    show (hs[e.1]?).isSome = true
    rw [List.getElem?_eq_getElem hlt]
    rfl

theorem index_positions_in_bounds_witness :
    ((HeuristicDb.new [sampleHeuristic]).heuristics[((0, 6) : Nat × Nat).1]?).isSome
      = true :=
  (index_positions_in_bounds [sampleHeuristic]).2 ["hashmap"] (0, 6) (by decide)

/-- C8: a query containing the empty-string term returns every indexed
record: the empty normalization is contained in every indexed token, so every
record of the database (each is indexed at least under its category) appears
in the result of `search`. -/
theorem empty_term_returns_all (hs : List Heuristic) (ts : List String)
    (hts : "" ∈ ts) (i : Nat) (hi : i < hs.length) :
    hs[i] ∈ (HeuristicDb.new hs).search ts := by
  obtain ⟨b, hb, hib⟩ := hasPos_buildIndex_cat hs i hi
  have hscore : 1 ≤ scoreOf (computeScores (buildIndex hs) ts) i := by
    rw [scoreOf_computeScores]
    have h1 : 1 ≤ termScoreSpec (buildIndex hs) "" i :=
      termScoreSpec_ge_bucket (lookupIdx_mem hb) hib
    have hmem : termScoreSpec (buildIndex hs) "" i
        ∈ ts.map (fun t => termScoreSpec (buildIndex hs) t i) :=
      List.mem_map_of_mem _ hts
    exact le_trans h1 (List.single_le_sum (fun x _ => Nat.zero_le x) _ hmem)
  have hkey : i ∈ keysOf (computeScores (buildIndex hs) ts) :=
    scoreOf_pos_mem_keys (by omega)
  have hkey' : i ∈ keysOf (sortDesc (computeScores (buildIndex hs) ts)) := by
    have hperm :
        (keysOf (sortDesc (computeScores (buildIndex hs) ts))).Perm
          (keysOf (computeScores (buildIndex hs) ts)) :=
      (sortDesc_perm _).map _
    exact hperm.mem_iff.mpr hkey
  obtain ⟨e, he, hei⟩ := List.mem_map.mp hkey'
  show hs[i] ∈ (sortDesc (computeScores (buildIndex hs) ts)).filterMap
    (fun e => hs[e.1]?)
  refine List.mem_filterMap.mpr ⟨e, he, ?_⟩
  show hs[e.1]? = some hs[i]
  rw [show e.1 = i from hei, List.getElem?_eq_getElem hi]

theorem empty_term_returns_all_witness :
    ([sampleHeuristic] : List Heuristic)[0]
      ∈ (HeuristicDb.new [sampleHeuristic]).search [""] :=
  empty_term_returns_all [sampleHeuristic] [""] (by decide) 0 (by decide)

/-- C7: `by_category` returns exactly the records whose category equals the
requested name case-insensitively, as a subsequence of the record sequence
(hence in original document order); it is empty when nothing matches, and
every record is found under its own category. -/
theorem by_category_spec (db : HeuristicDb) (name : String) :
    (db.by_category name).Sublist db.heuristics
    ∧ (∀ r, r ∈ db.by_category name
        ↔ r ∈ db.heuristics ∧ strLower r.category = strLower name)
    ∧ (∀ r ∈ db.heuristics, r ∈ db.by_category r.category)
    ∧ ((∀ r ∈ db.heuristics, strLower r.category ≠ strLower name) →
        db.by_category name = []) := by
  refine ⟨List.filter_sublist _, fun r => ?_, fun r hr => ?_, fun hnone => ?_⟩
  · unfold HeuristicDb.by_category
    rw [List.mem_filter]
    simp [beq_iff_eq]
  · unfold HeuristicDb.by_category
    rw [List.mem_filter]
    exact ⟨hr, by simp⟩
  · unfold HeuristicDb.by_category
    rw [List.filter_eq_nil_iff]
    intro r hr
    simpa using hnone r hr

theorem by_category_spec_witness :
    sampleHeuristic
      ∈ (HeuristicDb.new [sampleHeuristic]).by_category "data STRUCTURES" :=
  ((by_category_spec (HeuristicDb.new [sampleHeuristic]) "data STRUCTURES").2.1
    sampleHeuristic).mpr ⟨by decide, by decide⟩

theorem charToNat_inj {a b : Char} (h : a.toNat = b.toNat) : a = b :=
  Char.eq_of_val_eq (UInt32.ext h)

theorem lexLe_total : ∀ a b : List Char, lexLe a b = true ∨ lexLe b a = true := by
  intro a
  induction a with
  | nil => intro b; left; rfl
  | cons x as ih =>
    intro b
    cases b with
    | nil => right; rfl
    | cons y bs =>
      by_cases h1 : x.toNat < y.toNat
      · left; simp [lexLe, h1]
      · by_cases h2 : y.toNat < x.toNat
        · right; simp [lexLe, h2]
        · rcases ih bs with h | h
          · left; simp [lexLe, h1, h2, h]
          · right; simp [lexLe, h1, h2, h]

theorem lexLe_antisymm :
    ∀ a b : List Char, lexLe a b = true → lexLe b a = true → a = b := by
  intro a
  induction a with
  | nil =>
    intro b _ hba
    cases b with
    | nil => rfl
    | cons y bs => simp [lexLe] at hba
  | cons x as ih =>
    intro b hab hba
    cases b with
    | nil => simp [lexLe] at hab
    | cons y bs =>
      by_cases h1 : x.toNat < y.toNat
      · simp [lexLe, h1, Nat.lt_asymm h1, Nat.ne_of_lt h1] at hba
      · by_cases h2 : y.toNat < x.toNat
        · simp [lexLe, h1, h2] at hab
        · have hx : x = y := charToNat_inj (by omega)
          subst hx
          simp [lexLe, h1, h2] at hab hba
          rw [ih bs hab hba]

theorem lexLe_trans :
    ∀ a b c : List Char, lexLe a b = true → lexLe b c = true →
      lexLe a c = true := by
  intro a
  induction a with
  | nil => intro b c _ _; rfl
  | cons x as ih =>
    intro b c hab hbc
    cases b with
    | nil => simp [lexLe] at hab
    | cons y bs =>
      cases c with
      | nil => simp [lexLe] at hbc
      | cons z cs =>
        simp only [lexLe] at hab hbc ⊢
        by_cases h1 : x.toNat < y.toNat
        · by_cases h2 : y.toNat < z.toNat
          · have : x.toNat < z.toNat := by omega
            simp [this]
          · by_cases h3 : z.toNat < y.toNat
            · simp [h2, h3] at hbc
            · have : x.toNat < z.toNat := by omega
              simp [this]
        · by_cases h1' : y.toNat < x.toNat
          · simp [h1, h1'] at hab
          · have hxy : x.toNat = y.toNat := by omega
            by_cases h2 : y.toNat < z.toNat
            · have : x.toNat < z.toNat := by omega
              simp [this]
            · by_cases h3 : z.toNat < y.toNat
              · simp [h2, h3] at hbc
              · have h4 : ¬ x.toNat < z.toNat := by omega
                have h5 : ¬ z.toNat < x.toNat := by omega
                simp only [h1, h1', h2, h3, if_false, Bool.false_eq_true] at hab hbc
                simp [h4, h5]
                exact ih bs cs hab hbc

theorem strLe_total (a b : String) : strLe a b = true ∨ strLe b a = true :=
  lexLe_total a.data b.data

theorem strLe_antisymm {a b : String} (h1 : strLe a b = true)
    (h2 : strLe b a = true) : a = b := by
  have := lexLe_antisymm a.data b.data h1 h2
  cases a; cases b; exact congrArg String.mk this

theorem strLe_trans {a b c : String} (h1 : strLe a b = true)
    (h2 : strLe b c = true) : strLe a c = true :=
  lexLe_trans a.data b.data c.data h1 h2

theorem mem_insAsc {a x : String} :
    ∀ {l : List String}, a ∈ insAsc x l ↔ a = x ∨ a ∈ l := by
  intro l
  induction l with
  | nil => simp [insAsc]
  | cons y ys ih =>
    by_cases h : strLe x y
    · simp [insAsc, h]
    · simp only [insAsc, h, if_false, Bool.false_eq_true, List.mem_cons, ih]
      tauto

theorem mem_sortAsc {a : String} :
    ∀ {l : List String}, a ∈ sortAsc l ↔ a ∈ l := by
  intro l
  induction l with
  | nil => simp [sortAsc]
  | cons x xs ih =>
    simp only [sortAsc, List.foldr_cons] at *
    rw [mem_insAsc, ih, List.mem_cons]

theorem pairwise_insAsc {x : String} {l : List String}
    (h : l.Pairwise (fun a b => strLe a b = true)) :
    (insAsc x l).Pairwise (fun a b => strLe a b = true) := by
  induction l with
  | nil => simp [insAsc]
  | cons y ys ih =>
    rw [List.pairwise_cons] at h
    by_cases hxy : strLe x y
    · simp only [insAsc, hxy, if_true]
      rw [List.pairwise_cons]
      refine ⟨?_, List.pairwise_cons.mpr h⟩
      intro b hb
      rcases List.mem_cons.mp hb with hb | hb
      · subst hb; exact hxy
      · exact strLe_trans hxy (h.1 b hb)
    · simp only [insAsc, hxy, if_false, Bool.false_eq_true]
      rw [List.pairwise_cons]
      constructor
      · intro b hb
        rcases mem_insAsc.mp hb with hb | hb
        · rw [hb]
          rcases strLe_total x y with h' | h'
          · exact absurd h' hxy
          · exact h'
        · exact h.1 b hb
      · exact ih h.2

theorem pairwise_sortAsc (l : List String) :
    (sortAsc l).Pairwise (fun a b => strLe a b = true) := by
  induction l with
  | nil => simp [sortAsc]
  | cons x xs ih =>
    simp only [sortAsc, List.foldr_cons] at *
    exact pairwise_insAsc ih

theorem mem_dedupGo_sub {a prev : String} :
    ∀ {l : List String}, a ∈ dedupGo prev l → a ∈ l := by
  intro l
  induction l generalizing prev with
  | nil => intro h; simp [dedupGo] at h
  | cons y ys ih =>
    intro h
    by_cases hp : prev = y
    · simp only [dedupGo, hp, if_pos rfl] at h
      exact List.mem_cons_of_mem _ (ih h)
    · simp only [dedupGo, if_neg hp, List.mem_cons] at h
      rcases h with h | h
      · simp [h]
      · exact List.mem_cons_of_mem _ (ih h)

theorem mem_dedupGo_super {a prev : String} :
    ∀ {l : List String}, a ∈ l → a ∈ dedupGo prev l ∨ a = prev := by
  intro l
  induction l generalizing prev with
  | nil => intro h; simp at h
  | cons y ys ih =>
    intro h
    by_cases hp : prev = y
    · simp only [dedupGo, hp, if_pos rfl]
      rcases List.mem_cons.mp h with h | h
      · right; rw [h]
      · rcases ih h with h' | h'
        · left; exact h'
        · right; rw [h']
    · simp only [dedupGo, if_neg hp]
      rcases List.mem_cons.mp h with h | h
      · left; simp [h]
      · rcases ih h with h' | h'
        · left; exact List.mem_cons_of_mem _ h'
        · left; rw [h']; simp
  
theorem mem_dedupAdj {a : String} :
    ∀ {l : List String}, a ∈ dedupAdj l ↔ a ∈ l := by
  intro l
  cases l with
  | nil => simp [dedupAdj]
  | cons x rest =>
    simp only [dedupAdj, List.mem_cons]
    constructor
    · rintro (h | h)
      · simp [h]
      · exact Or.inr (mem_dedupGo_sub h)
    · rintro (h | h)
      · exact Or.inl h
      · rcases mem_dedupGo_super h with h' | h'
        · exact Or.inr h'
        · exact Or.inl h'

theorem not_mem_dedupGo {prev : String} {l : List String}
    (h : (prev :: l).Pairwise (fun a b => strLe a b = true)) :
    prev ∉ dedupGo prev l := by
  induction l generalizing prev with
  | nil => simp [dedupGo]
  | cons y ys ih =>
    rw [List.pairwise_cons] at h
    by_cases hp : prev = y
    · simp only [dedupGo, hp, if_pos rfl]
      subst hp
      exact ih (List.pairwise_cons.mpr ⟨fun b hb => (List.pairwise_cons.mp h.2).1 b hb,
        (List.pairwise_cons.mp h.2).2⟩)
    · simp only [dedupGo, if_neg hp, List.mem_cons]
      rintro (he | he)
      · exact hp he
      · have hmem : prev ∈ ys := mem_dedupGo_sub he
        have h1 : strLe prev y = true := h.1 y (by simp)
        have h2 : strLe y prev = true :=
          (List.pairwise_cons.mp h.2).1 prev hmem
        exact hp (strLe_antisymm h1 h2)

theorem nodup_dedupGo {prev : String} {l : List String}
    (h : (prev :: l).Pairwise (fun a b => strLe a b = true)) :
    (dedupGo prev l).Nodup := by
  induction l generalizing prev with
  | nil => simp [dedupGo]
  | cons y ys ih =>
    rw [List.pairwise_cons] at h
    by_cases hp : prev = y
    · simp only [dedupGo, hp, if_pos rfl]
      subst hp
      exact ih (List.pairwise_cons.mpr ⟨fun b hb => (List.pairwise_cons.mp h.2).1 b hb,
        (List.pairwise_cons.mp h.2).2⟩)
    · simp only [dedupGo, if_neg hp]
      rw [List.nodup_cons]
      exact ⟨not_mem_dedupGo h.2, ih h.2⟩

theorem nodup_dedupAdj {l : List String}
    (h : l.Pairwise (fun a b => strLe a b = true)) : (dedupAdj l).Nodup := by
  cases l with
  | nil => simp [dedupAdj]
  | cons x rest =>
    simp only [dedupAdj]
    rw [List.nodup_cons]
    exact ⟨not_mem_dedupGo h, nodup_dedupGo h⟩

theorem mem_categories {hs : List Heuristic} {c : String} :
    c ∈ (HeuristicDb.new hs).categories ↔ c ∈ hs.map (fun h => h.category) := by
  unfold HeuristicDb.categories
  rw [mem_dedupAdj, mem_sortAsc]
  exact Iff.rfl

theorem nodup_categories (hs : List Heuristic) :
    (HeuristicDb.new hs).categories.Nodup :=
  nodup_dedupAdj (pairwise_sortAsc _)

theorem sum_map_add {α : Type} (cs : List α) (f g : α → Nat) :
    (cs.map fun c => f c + g c).sum = (cs.map f).sum + (cs.map g).sum := by
  induction cs with
  | nil => simp
  | cons c cs ih => simp [ih]; ring

theorem sum_map_ite (cs : List String) (p : String → Bool) :
    (cs.map fun c => if p c then 1 else 0).sum = (cs.filter p).length := by
  induction cs with
  | nil => simp
  | cons c cs ih =>
    by_cases h : p c
    · simp [List.filter_cons, h, ih]; omega
    · simp [List.filter_cons, h, ih]

theorem filter_length_one {cs : List String} (hnd : cs.Nodup)
    {a : String} (ha : a ∈ cs) {p : String → Bool} (hpa : p a = true)
    (huniq : ∀ x ∈ cs, p x = true → x = a) : (cs.filter p).length = 1 := by
  induction cs with
  | nil => simp at ha
  | cons c cs ih =>
    rw [List.nodup_cons] at hnd
    rcases List.mem_cons.mp ha with he | he
    · subst he
      rw [List.filter_cons, if_pos hpa]
      have hrest : cs.filter p = [] := by
        rw [List.filter_eq_nil_iff]
        intro x hx hpx
        exact hnd.1 ((huniq x (List.mem_cons_of_mem _ hx) hpx) ▸ hx)
      simp [hrest]
    · have hpc : p c = false := by
        by_contra hc
        have : c = a := huniq c (by simp) (by simpa using hc)
        exact hnd.1 (this ▸ he)
      rw [List.filter_cons, if_neg (by simp [hpc])]
      exact ih hnd.2 he (fun x hx hpx => huniq x (List.mem_cons_of_mem _ hx) hpx)

theorem partition_sum (cs : List String) (f : Heuristic → String → Bool) :
    ∀ (hs : List Heuristic),
      (∀ r ∈ hs, (cs.filter (f r)).length = 1) →
      (cs.map fun c => (hs.filter (fun r => f r c)).length).sum = hs.length := by
  intro hs
  induction hs with
  | nil => intro _; simp
  | cons r hs ih =>
    intro h1
    have hhead := h1 r (by simp)
    have hstep :
        (cs.map fun c => ((r :: hs).filter (fun r' => f r' c)).length)
          = cs.map fun c =>
              (if f r c then 1 else 0) + (hs.filter (fun r' => f r' c)).length := by
      apply List.map_congr_left
      intro c _
      rw [List.filter_cons]
      by_cases hf : f r c
      · simp [hf]; omega
      · simp [hf]
    rw [hstep, sum_map_add, sum_map_ite, hhead,
      ih (fun r' hr' => h1 r' (List.mem_cons_of_mem _ hr'))]
    simp [Nat.add_comm]

/-- C4 as stated fails: two records whose categories differ only in case
(`"Foo"` and `"foo"`) give `categories() = ["Foo", "foo"]`, and the
case-insensitive `by_category` counts both records under both names, so the
category-wise sum is 4 while `all()` has 2 records. -/
theorem categories_partition_cex :
    ¬ ((((HeuristicDb.new
            [{ title := "t1", action := "", category := "Foo", content := "",
               crates := [], std_types := [], keywords := [] },
             { title := "t2", action := "", category := "foo", content := "",
               crates := [], std_types := [], keywords := [] }]).categories).map
          (fun c => ((HeuristicDb.new
            [{ title := "t1", action := "", category := "Foo", content := "",
               crates := [], std_types := [], keywords := [] },
             { title := "t2", action := "", category := "foo", content := "",
               crates := [], std_types := [], keywords := [] }]).by_category c).length)).sum
        = ((HeuristicDb.new
            [{ title := "t1", action := "", category := "Foo", content := "",
               crates := [], std_types := [], keywords := [] },
             { title := "t2", action := "", category := "foo", content := "",
               crates := [], std_types := [], keywords := [] }]).all).length) := by
  decide

/-- C4 amended: when no two records' category names differ only in case (the
lowercase normalization is injective on the stored category names), the sum of
`by_category(c).len()` over all `c` in `categories()` equals `all().len()`. -/
theorem categories_partition (hs : List Heuristic)
    (hinj : ∀ r1 ∈ hs, ∀ r2 ∈ hs,
      strLower r1.category = strLower r2.category → r1.category = r2.category) :
    (((HeuristicDb.new hs).categories).map
        (fun c => ((HeuristicDb.new hs).by_category c).length)).sum
      = ((HeuristicDb.new hs).all).length := by
  have hone : ∀ r ∈ hs,
      (((HeuristicDb.new hs).categories).filter
        (fun c => strLower r.category == strLower c)).length = 1 := by
    intro r hr
    refine filter_length_one (nodup_categories hs)
      (mem_categories.mpr (List.mem_map_of_mem _ hr)) (by simp) ?_
    intro x hx hpx
    obtain ⟨r2, hr2, hr2x⟩ := List.mem_map.mp (mem_categories.mp hx)
    have : strLower r2.category = strLower r.category := by
      rw [hr2x]
      exact (beq_iff_eq.mp hpx).symm
    have := hinj r2 hr2 r hr this
    rw [← hr2x, this]
  have := partition_sum ((HeuristicDb.new hs).categories)
    (fun r c => strLower r.category == strLower c) hs hone
  exact this

theorem categories_partition_witness :
    (((HeuristicDb.new [sampleHeuristic]).categories).map
        (fun c => ((HeuristicDb.new [sampleHeuristic]).by_category c).length)).sum
      = ((HeuristicDb.new [sampleHeuristic]).all).length :=
  categories_partition [sampleHeuristic] (by decide)

theorem strIsEmpty_false {s : String} (h : strIsEmpty s = false) : s ≠ "" := by
  intro he
  subst he
  simp [strIsEmpty] at h

theorem actionStep_heuristics (st : PState) (line : String) :
    (actionStep st line).heuristics = st.heuristics := by
  unfold actionStep
  cases stripPfx? line "**Action:**" <;> rfl

theorem crateStep_heuristics (st : PState) (line : String) :
    (crateStep st line).heuristics = st.heuristics := by
  unfold crateStep
  by_cases h1 : strContains line "- **Crates:**"
  · simp [h1]
  · by_cases h2 : strStarts (strTrim line) "- `" && strContains line "` -"
    · simp only [h1, if_false, h2, if_true, Bool.false_eq_true]
      cases extract_crate_name line <;> rfl
    · simp [h1, h2]

theorem stdTypePart_foldl_heuristics (parts : List String) :
    ∀ st : PState, (parts.foldl stdTypePart st).heuristics = st.heuristics := by
  induction parts with
  | nil => intro st; rfl
  | cons part parts ih =>
    intro st
    simp only [List.foldl_cons]
    rw [ih]
    unfold stdTypePart
    cases extract_code_name (strTrim part) <;> rfl

theorem stdTypesStep_heuristics (st : PState) (line : String) :
    (stdTypesStep st line).heuristics = st.heuristics := by
  unfold stdTypesStep
  by_cases h1 : strContains line "- **Std types:**"
  · simp only [h1, if_true]
    cases (strSplitOn line "**Std types:**")[1]? with
    | none => rfl
    | some types => exact stdTypePart_foldl_heuristics _ st
  · simp [h1]

theorem whenToUseStep_heuristics (st : PState) (line : String) :
    (whenToUseStep st line).heuristics = st.heuristics := by
  unfold whenToUseStep
  by_cases h1 : strContains line "**When to use:**"
  · simp only [h1, if_true]
    cases (strSplitOn line "**When to use:**")[1]? <;> rfl
  · simp [h1]

theorem contentLineStep_heuristics (st : PState) (line : String) :
    (contentLineStep st line).heuristics = st.heuristics := by
  unfold contentLineStep
  rw [whenToUseStep_heuristics, stdTypesStep_heuristics, crateStep_heuristics,
    actionStep_heuristics]

theorem flushHeuristics_titles {st : PState}
    (h : ∀ r ∈ st.heuristics, r.title ≠ "") :
    ∀ r ∈ flushHeuristics st, r.title ≠ "" := by
  unfold flushHeuristics
  by_cases hg : st.in_h && !(strIsEmpty st.title)
  · rw [if_pos hg]
    intro r hr
    rcases List.mem_append.mp hr with hr | hr
    · exact h r hr
    · have he : r = currentRecord st := by simpa using hr
      rw [he]
      have : (!(strIsEmpty st.title)) = true := (Bool.and_eq_true _ _ |>.mp hg).2
      exact strIsEmpty_false (by simpa using this)
  · rw [if_neg hg]
    exact h

theorem stepLine_titles {st : PState} (line : String)
    (h : ∀ r ∈ st.heuristics, r.title ≠ "") :
    ∀ r ∈ (stepLine st line).heuristics, r.title ≠ "" := by
  unfold stepLine
  cases stripPfx? line "## " with
  | some cat => exact flushHeuristics_titles h
  | none =>
    cases stripPfx? line "### " with
    | some title => exact flushHeuristics_titles h
    | none =>
      by_cases hin : st.in_h
      · simp only [hin, if_true]
        rw [contentLineStep_heuristics]
        exact h
      · simp only [hin, if_false, Bool.false_eq_true]
        exact h

/-- C2 as stated fails: an entry-header line before any category header is
emitted as a record whose category is the empty string, not dropped. -/
theorem parse_nonempty_fields_cex :
    ¬ ∀ r ∈ parse_markdown "### Need hashmap?", r.category ≠ "" := by
  decide

/-- C2 amended: every record emitted by the parser has a non-empty title — an
entry with an empty title and a malformed trailing fragment with no title are
silently dropped — but an entry encountered before any category header is
emitted with an empty category rather than dropped. -/
theorem parse_titles_nonempty (content : String) :
    ∀ r ∈ parse_markdown content, r.title ≠ "" := by
  have aux : ∀ (lines : List String) (st : PState),
      (∀ r ∈ st.heuristics, r.title ≠ "") →
      ∀ r ∈ flushHeuristics (lines.foldl stepLine st), r.title ≠ "" := by
    intro lines
    induction lines with
    | nil => intro st hst; exact flushHeuristics_titles hst
    | cons line lines ih =>
      intro st hst
      simp only [List.foldl_cons]
      exact ih (stepLine st line) (stepLine_titles line hst)
  exact aux (rustLines content) initPState (by simp [initPState])

theorem parse_titles_nonempty_witness :
    ({ title := "Need hashmap?", action := "", category := "",
       content := "### Need hashmap?", crates := [], std_types := [],
       keywords := ["hash", "hashmap"] } : Heuristic).title ≠ "" :=
  parse_titles_nonempty "### Need hashmap?" _ (by decide)

theorem extract_keywords_nodup {text : String} {ks : List String}
    (h : ks.Nodup) : (extract_keywords text ks).Nodup := by
  unfold extract_keywords
  have aux : ∀ (vs : List String) (ks : List String), ks.Nodup →
      (vs.foldl
        (fun ks term =>
          if strContains (strLower text) term && !(ks.contains term) then
            ks ++ [term]
          else ks) ks).Nodup := by
    intro vs
    induction vs with
    | nil => intro ks hks; simpa
    | cons term vs ih =>
      intro ks hks
      simp only [List.foldl_cons]
      by_cases hc : strContains (strLower text) term && !(ks.contains term)
      · rw [if_pos hc]
        have hnot : term ∉ ks := by
          have := (Bool.and_eq_true _ _ |>.mp hc).2
          have hfalse : ks.contains term = false := by simpa using this
          simpa using hfalse
        exact ih _ (by simp [List.nodup_append, hks, hnot])
      · rw [if_neg hc]
        exact ih _ hks
  exact aux vocabulary ks h

theorem actionStep_keywords {st : PState} (line : String)
    (h : st.keywords.Nodup) : (actionStep st line).keywords.Nodup := by
  unfold actionStep
  cases stripPfx? line "**Action:**" with
  | none => simpa
  | some action => exact extract_keywords_nodup h

theorem whenToUseStep_keywords {st : PState} (line : String)
    (h : st.keywords.Nodup) : (whenToUseStep st line).keywords.Nodup := by
  unfold whenToUseStep
  by_cases h1 : strContains line "**When to use:**"
  · simp only [h1, if_true]
    cases (strSplitOn line "**When to use:**")[1]? with
    | none => simpa
    | some use_case => exact extract_keywords_nodup h
  · simpa [h1]

theorem crateStep_skip {st : PState} {line : String}
    (hcr : strStarts (strTrim line) "- `" = false) : crateStep st line = st := by
  unfold crateStep
  by_cases h1 : strContains line "- **Crates:**"
  · simp [h1]
  · simp [h1, hcr]

theorem stdTypesStep_skip {st : PState} {line : String}
    (hstd : strContains line "- **Std types:**" = false) :
    stdTypesStep st line = st := by
  unfold stdTypesStep
  simp [hstd]

theorem contentLineStep_keywords {st : PState} {line : String}
    (hcr : strStarts (strTrim line) "- `" = false)
    (hstd : strContains line "- **Std types:**" = false)
    (h : st.keywords.Nodup) : (contentLineStep st line).keywords.Nodup := by
  unfold contentLineStep
  rw [stdTypesStep_skip hstd, crateStep_skip hcr]
  exact whenToUseStep_keywords line (actionStep_keywords line h)

theorem flushHeuristics_keywords {st : PState}
    (hks : st.keywords.Nodup)
    (h : ∀ r ∈ st.heuristics, r.keywords.Nodup) :
    ∀ r ∈ flushHeuristics st, r.keywords.Nodup := by
  unfold flushHeuristics
  by_cases hg : st.in_h && !(strIsEmpty st.title)
  · rw [if_pos hg]
    intro r hr
    rcases List.mem_append.mp hr with hr | hr
    · exact h r hr
    · have he : r = currentRecord st := by simpa using hr
      rw [he]
      exact hks
  · rw [if_neg hg]
    exact h

theorem stepLine_keywords {st : PState} {line : String}
    (hcr : strStarts (strTrim line) "- `" = false)
    (hstd : strContains line "- **Std types:**" = false)
    (hks : st.keywords.Nodup)
    (h : ∀ r ∈ st.heuristics, r.keywords.Nodup) :
    (stepLine st line).keywords.Nodup
    ∧ ∀ r ∈ (stepLine st line).heuristics, r.keywords.Nodup := by
  unfold stepLine
  cases stripPfx? line "## " with
  | some cat =>
    exact ⟨List.nodup_nil, flushHeuristics_keywords hks h⟩
  | none =>
    cases stripPfx? line "### " with
    | some title =>
      exact ⟨extract_keywords_nodup List.nodup_nil, flushHeuristics_keywords hks h⟩
    | none =>
      by_cases hin : st.in_h
      · simp only [hin, if_true]
        refine ⟨contentLineStep_keywords hcr hstd hks, ?_⟩
        rw [contentLineStep_heuristics]
        exact h
      · simp only [hin, if_false, Bool.false_eq_true]
        exact ⟨hks, h⟩

/-- C5 as stated fails: two crate-bullet lines with the same crate name push
the crate name into the record's keywords twice, so the keywords sequence
of the emitted record contains a duplicate. -/
theorem parse_keywords_nodup_cex :
    ¬ ∀ r ∈ parse_markdown "### T\n- `serde` - a\n- `serde` - b",
        r.keywords.Nodup := by
  decide

/-- C5 amended: keywords contributed by the fixed-vocabulary extraction are
de-duplicated, so when the input has no library-bullet lines and no
`Std types` lines (the two extractions that append keywords unconditionally),
every emitted record's keywords sequence has no duplicates. -/
theorem parse_keywords_nodup (content : String)
    (hlines : ∀ line ∈ rustLines content,
      strStarts (strTrim line) "- `" = false
      ∧ strContains line "- **Std types:**" = false) :
    ∀ r ∈ parse_markdown content, r.keywords.Nodup := by
  have aux : ∀ (lines : List String),
      (∀ line ∈ lines,
        strStarts (strTrim line) "- `" = false
        ∧ strContains line "- **Std types:**" = false) →
      ∀ (st : PState), st.keywords.Nodup →
      (∀ r ∈ st.heuristics, r.keywords.Nodup) →
      ∀ r ∈ flushHeuristics (lines.foldl stepLine st), r.keywords.Nodup := by
    intro lines
    induction lines with
    | nil => intro _ st hks hst; exact flushHeuristics_keywords hks hst
    | cons line lines ih =>
      intro hl st hks hst
      simp only [List.foldl_cons]
      have hline := hl line (by simp)
      have hstep := stepLine_keywords hline.1 hline.2 hks hst
      exact ih (fun l hml => hl l (List.mem_cons_of_mem _ hml)) _ hstep.1 hstep.2
  exact aux (rustLines content) hlines initPState (by simp [initPState])
    (by simp [initPState])

theorem parse_keywords_nodup_witness :
    ({ title := "Need hashmap?", action := "", category := "",
       content := "### Need hashmap?", crates := [], std_types := [],
       keywords := ["hash", "hashmap"] } : Heuristic).keywords.Nodup :=
  parse_keywords_nodup "### Need hashmap?" (by decide) _ (by decide)

/-- C3 as stated fails: the claim constrains only the keyword sets, and a
second record whose *category* is exactly `"hashmap"` joins the exact bucket,
scoring 2+1+1 = 4 against the first record's 3, so `search(["hashmap"])`
ranks R2 strictly above R1. -/
theorem exact_match_outranks_cex :
    (HeuristicDb.new
      [{ title := "r1", action := "", category := "misc", content := "",
         crates := [], std_types := [], keywords := ["hashmap"] },
       { title := "r2", action := "", category := "hashmap", content := "",
         crates := [], std_types := [], keywords := ["hashmapx"] }]).search
      ["hashmap"]
    = [{ title := "r2", action := "", category := "hashmap", content := "",
         crates := [], std_types := [], keywords := ["hashmapx"] },
       { title := "r1", action := "", category := "misc", content := "",
         crates := [], std_types := [], keywords := ["hashmap"] }] := by
  decide

/-- C3 amended: in the two-record database whose first record's keywords are
exactly `["hashmap"]` and whose second record's keywords are exactly
`["hashmapx"]`, with no crate or std-type tokens and with category names that
neither contain `"hashmap"` nor are contained in it, `search(["hashmap"])`
ranks R1 strictly above R2 (the result is exactly `[R1, R2]`): R1 scores
2+1 = 3, R2 only the partial +1. -/
theorem exact_match_outranks (t1 a1 co1 c1 t2 a2 co2 c2 : String)
    (h1 : matchB (strLower c1) "hashmap" = false)
    (h2 : matchB (strLower c2) "hashmap" = false) :
    (HeuristicDb.new
      [{ title := t1, action := a1, category := c1, content := co1,
         crates := [], std_types := [], keywords := ["hashmap"] },
       { title := t2, action := a2, category := c2, content := co2,
         crates := [], std_types := [], keywords := ["hashmapx"] }]).search
      ["hashmap"]
    = [{ title := t1, action := a1, category := c1, content := co1,
         crates := [], std_types := [], keywords := ["hashmap"] },
       { title := t2, action := a2, category := c2, content := co2,
         crates := [], std_types := [], keywords := ["hashmapx"] }] := by
  have hself : matchB "hashmap" "hashmap" = true := by decide
  have hx : matchB "hashmapx" "hashmap" = true := by decide
  have e1 : strLower "hashmap" = "hashmap" := rfl
  have e2 : strLower "hashmapx" = "hashmapx" := rfl
  have hne1 : ("hashmap" : String) ≠ strLower c1 := by
    intro he
    rw [← he, hself] at h1
    simp at h1
  have hne1x : ("hashmapx" : String) ≠ strLower c1 := by
    intro he
    rw [← he, hx] at h1
    simp at h1
  have hne2 : ("hashmap" : String) ≠ strLower c2 := by
    intro he
    rw [← he, hself] at h2
    simp at h2
  have hne2x : ("hashmapx" : String) ≠ strLower c2 := by
    intro he
    rw [← he, hx] at h2
    simp at h2
  simp only [HeuristicDb.search, HeuristicDb.new]
  by_cases hcc : strLower c1 = strLower c2
  · have hidx : buildIndex
        [{ title := t1, action := a1, category := c1, content := co1,
           crates := [], std_types := [], keywords := ["hashmap"] },
         { title := t2, action := a2, category := c2, content := co2,
           crates := [], std_types := [], keywords := ["hashmapx"] }]
        = [("hashmap", [0]), (strLower c2, [0, 1]), ("hashmapx", [1])] := by
      simp only [buildIndex, buildIndexAux, indexRecord, List.foldl_cons,
        List.foldl_nil, e1, e2, insertIdx, hne1, hne1x, hne2, hne2x, hcc]
      simp [insertIdx, Ne.symm hne2x]
    rw [hidx]
    have hsc : computeScores
        [("hashmap", [0]), (strLower c2, [0, 1]), ("hashmapx", [1])]
        ["hashmap"] = [(0, 3), (1, 1)] := by
      simp [computeScores, termPass, termPassN, e1, lookupIdx, bumpAll, bump,
        hself, hx, h2, Ne.symm hne2]
    rw [hsc]
    rfl
  · have hidx : buildIndex
        [{ title := t1, action := a1, category := c1, content := co1,
           crates := [], std_types := [], keywords := ["hashmap"] },
         { title := t2, action := a2, category := c2, content := co2,
           crates := [], std_types := [], keywords := ["hashmapx"] }]
        = [("hashmap", [0]), (strLower c1, [0]), ("hashmapx", [1]),
           (strLower c2, [1])] := by
      simp only [buildIndex, buildIndexAux, indexRecord, List.foldl_cons,
        List.foldl_nil, e1, e2, insertIdx, hne1, hne1x, hne2, hne2x, hcc]
      simp [insertIdx, Ne.symm hne1x, hne2x, hcc]
    rw [hidx]
    have hsc : computeScores
        [("hashmap", [0]), (strLower c1, [0]), ("hashmapx", [1]),
         (strLower c2, [1])] ["hashmap"] = [(0, 3), (1, 1)] := by
      simp [computeScores, termPass, termPassN, e1, lookupIdx, bumpAll, bump,
        hself, hx, h1, h2, Ne.symm hne1, Ne.symm hne2]
    rw [hsc]
    rfl

theorem exact_match_outranks_witness :
    (HeuristicDb.new
      [{ title := "r1", action := "", category := "misc", content := "",
         crates := [], std_types := [], keywords := ["hashmap"] },
       { title := "r2", action := "", category := "other", content := "",
         crates := [], std_types := [], keywords := ["hashmapx"] }]).search
      ["hashmap"]
    = [{ title := "r1", action := "", category := "misc", content := "",
         crates := [], std_types := [], keywords := ["hashmap"] },
       { title := "r2", action := "", category := "other", content := "",
         crates := [], std_types := [], keywords := ["hashmapx"] }] :=
  exact_match_outranks "r1" "" "" "misc" "r2" "" "" "other" (by decide) (by decide)
